import Mathlib

/-!
Shallow embedding of `src/fediverse_username_extractor.py`.

Texts are modelled as `List Char`.  Python's regex character classes are
modelled on the ASCII range (`\w` = ASCII alphanumeric or underscore,
`\s` = ASCII whitespace); all regular expressions used by the script are
compiled by hand into explicit scanners with Python's leftmost, greedy,
backtracking semantics.
-/

/-- Python regex `\w` (modelled on the ASCII range): letters, digits, underscore. -/
def isWordChar (c : Char) : Bool :=
  c.isAlphanum || c == '_'

/-- Python regex `\s` (modelled on the ASCII range): space, tab, newline, CR, VT, FF. -/
def isSpaceChar (c : Char) : Bool :=
  c == ' ' || c == '\t' || c == '\n' || c == '\r' || c == '\x0b' || c == '\x0c'

/-- Character class `[\w._-]` used for the local part (line 41 and line 81 of the source). -/
def isClass1 (c : Char) : Bool :=
  isWordChar c || c == '.' || c == '_' || c == '-'

/-- Character class `[\w.-]` used for the domain part (line 41 and line 83 of the source). -/
def isClass2 (c : Char) : Bool :=
  isWordChar c || c == '.' || c == '-'

/-- Character class `[^/\s]` used in the URL patterns (lines 20 and 43 of the source). -/
def isUrlChar (c : Char) : Bool :=
  !(c == '/' || isSpaceChar c)

/-- Greedy scan: the maximal prefix of `l` whose characters satisfy `p`, paired with
the remaining suffix.  This is the semantics of a greedy `X+`/`X*` regex atom whose
class `X` excludes the character that must follow. -/
def spanP (p : Char → Bool) : List Char → List Char × List Char
  | [] => ([], [])
  | c :: cs =>
    if p c then (c :: (spanP p cs).1, (spanP p cs).2)
    else ([], c :: cs)

/-- Removes trailing `/` characters: Python `str.rstrip('/')` (line 25 of the source). -/
def rstripSlash (l : List Char) : List Char :=
  ((spanP (fun c => c == '/') l.reverse).2).reverse

/-- Matches the literal list `p` as a prefix of `l`, returning the rest on success. -/
def dropPrefixCh : List Char → List Char → Option (List Char)
  | [], l => some l
  | _, [] => none
  | p :: ps, c :: cs => if c == p then dropPrefixCh ps cs else none

/-- Characters of the literal scheme alternative `https://`. -/
def httpsPrefix : List Char := ['h', 't', 't', 'p', 's', ':', '/', '/']

/-- Characters of the literal scheme alternative `http://`. -/
def httpPrefix : List Char := ['h', 't', 't', 'p', ':', '/', '/']

/-- Matches the regex prefix `https?://` (greedy `s?` first, as Python tries it),
returning the remaining input.  The two alternatives can never both succeed. -/
def stripScheme (l : List Char) : Option (List Char) :=
  match dropPrefixCh httpsPrefix l with
  | some r => some r
  | none => dropPrefixCh httpPrefix l

/-- Model of `convert_url_to_username` (lines 6-27 of the source): Python
`re.match(r'https?://([^/]+)/@([^/\s]+)/?', url)`, anchored at the start and
matching only a prefix of `url`; on success the handle `@username@domain` is
returned after `username.rstrip('/')`.  Greedy `([^/]+)` stops exactly at the
first `/` (backtracking cannot move the `/@` earlier since the class excludes
`/`), and `([^/\s]+)` likewise takes the maximal run.  `convertAfterScheme`
handles the part of the pattern after `https?://`. -/
def convertAfterScheme (r1 : List Char) : Option (List Char) :=
  let host := (spanP (fun c => !(c == '/')) r1).1
  if host = [] then none
  else
    match (spanP (fun c => !(c == '/')) r1).2 with
    | '/' :: '@' :: r3 =>
      let user := (spanP isUrlChar r3).1
      if user = [] then none
      else some ('@' :: rstripSlash user ++ '@' :: host)
    | _ => none

/-- Model of `convert_url_to_username` proper: match the scheme, then the rest. -/
def convert_url_to_username (url : List Char) : Option (List Char) :=
  match stripScheme url with
  | none => none
  | some r1 => convertAfterScheme r1

/-- Tail of the inline-handle regex `@[\w._-]+@[\w.-]+\w+` (line 41 of the source),
given the input after the second `@`.  The greedy `[\w.-]+` takes the maximal run
`d0`; backtracking for `\w+` then trims `d0` back to its last word character, and
the whole tail succeeds iff at least two characters remain (one for `[\w.-]+`,
one for `\w+`).  Returns the matched domain together with the rest of the input
(the trimmed-off characters are given back to the scan). -/
def matchHandleTail (r2 : List Char) : Option (List Char × List Char) :=
  let d0 := (spanP isClass2 r2).1
  let r3 := (spanP isClass2 r2).2
  let t := (spanP (fun c => !(isWordChar c)) d0.reverse).1
  let d := (spanP (fun c => !(isWordChar c)) d0.reverse).2.reverse
  if 2 ≤ d.length then some (d, t.reverse ++ r3) else none

/-- Attempt to match the inline-handle regex `@[\w._-]+@[\w.-]+\w+` at the head of
`l`.  On success, returns the matched substring and the rest of the input.  The
greedy `[\w._-]+` takes the maximal class run; since the class excludes `@`,
backtracking cannot produce the following literal `@` anywhere else. -/
def matchHandleAt (l : List Char) : Option (List Char × List Char) :=
  match l with
  | '@' :: rest =>
    let u := (spanP isClass1 rest).1
    if u = [] then none
    else
      match (spanP isClass1 rest).2 with
      | '@' :: r2 =>
        match matchHandleTail r2 with
        | some (d, r) => some ('@' :: u ++ '@' :: d, r)
        | none => none
      | _ => none
  | _ => none

/-- Attempt to match the URL regex `https?://[^/\s]+/@[^/\s]+/?` (line 43 of the
source) at the head of `l`, given that the scheme characters `scheme` have
already been consumed leaving `r`.  The greedy optional `/?` consumes a slash
when one follows the local part. -/
def matchUrlAfterScheme (scheme r : List Char) : Option (List Char × List Char) :=
  let host := (spanP isUrlChar r).1
  let r1 := (spanP isUrlChar r).2
  if host = [] then none
  else
    match r1 with
    | '/' :: '@' :: r2 =>
      let user := (spanP isUrlChar r2).1
      let r3 := (spanP isUrlChar r2).2
      if user = [] then none
      else
        match r3 with
        | '/' :: r4 => some (scheme ++ host ++ '/' :: '@' :: user ++ ['/'], r4)
        | _ => some (scheme ++ host ++ '/' :: '@' :: user, r3)
    | _ => none

/-- Attempt to match the URL regex `https?://[^/\s]+/@[^/\s]+/?` at the head of `l`. -/
def matchUrlAt (l : List Char) : Option (List Char × List Char) :=
  match dropPrefixCh httpsPrefix l with
  | some r => matchUrlAfterScheme httpsPrefix r
  | none =>
    match dropPrefixCh httpPrefix l with
    | some r => matchUrlAfterScheme httpPrefix r
    | none => none

/-- Python `re.findall` scan for the inline-handle pattern: try a match at every
position from left to right, emitting non-overlapping matches and resuming after
each one.  `fuel` bounds the number of steps; `fuel = l.length` always suffices
since every step consumes at least one character. -/
def findAllHandles : Nat → List Char → List (List Char)
  | 0, _ => []
  | _ + 1, [] => []
  | fuel + 1, c :: cs =>
    match matchHandleAt (c :: cs) with
    | some (m, rest) => m :: findAllHandles fuel rest
    | none => findAllHandles fuel cs

/-- Python `re.findall` scan for the URL pattern, with the same fuel discipline. -/
def findAllUrls : Nat → List Char → List (List Char)
  | 0, _ => []
  | _ + 1, [] => []
  | fuel + 1, c :: cs =>
    match matchUrlAt (c :: cs) with
    | some (m, rest) => m :: findAllUrls fuel rest
    | none => findAllUrls fuel cs

/-- Python `set.add` modelled on insertion-ordered duplicate-free lists. -/
def insertNoDup (acc : List (List Char)) (x : List Char) : List (List Char) :=
  if x ∈ acc then acc else acc ++ [x]

/-- Step of the URL loop of `extract_fediverse_usernames` (lines 53-56 of the
source): convert the URL and add the result to the set when conversion succeeds. -/
def addConverted (acc : List (List Char)) (url : List Char) : List (List Char) :=
  match convert_url_to_username url with
  | some u => insertNoDup acc u
  | none => acc

/-- Model of `extract_fediverse_usernames` (lines 29-58 of the source): find all
inline-handle matches, find all URL matches and convert them, and return the
set of results (modelled as an insertion-ordered duplicate-free list). -/
def extract_fediverse_usernames (text : List Char) : List (List Char) :=
  (findAllUrls text.length text).foldl addConverted
    ((findAllHandles text.length text).foldl insertNoDup [])

/-- Python `str.split(sep)` on character lists: `pySplit sep []` is `[[]]`, matching
`''.split(sep) == ['']`. -/
def pySplit (sep : Char) : List Char → List (List Char)
  | [] => [[]]
  | c :: cs =>
    if c == sep then [] :: pySplit sep cs
    else
      match pySplit sep cs with
      | h :: t => (c :: h) :: t
      | [] => [[c]]

/-- Body of the loop of `clean_usernames` (lines 71-87 of the source) for one
username: require exactly two `@` (line 73), split on `@` into exactly three
parts (lines 76-78), strip disallowed characters from the local part and the
domain (lines 81-83, Python `re.sub` with the complement classes), and emit
`@cleaned_user@cleaned_domain` when both are non-empty (lines 85-87). -/
def cleanOne (username : List Char) : Option (List Char) :=
  if username.count '@' = 2 then
    match pySplit '@' username with
    | [_, p1, p2] =>
      let cleaned_user := p1.filter isClass1
      let cleaned_domain := p2.filter isClass2
      if cleaned_user ≠ [] ∧ cleaned_domain ≠ [] then
        some ('@' :: cleaned_user ++ '@' :: cleaned_domain)
      else none
    | _ => none
  else none

/-- Model of `clean_usernames` (lines 60-89 of the source): apply `cleanOne` to
each username in order, keeping the successes. -/
def clean_usernames (usernames : List (List Char)) : List (List Char) :=
  usernames.filterMap cleanOne

/-- Python `list(set(l))` (line 135 of the source), modelled as insertion-ordered
deduplication. -/
def dedupList (l : List (List Char)) : List (List Char) :=
  l.foldl insertNoDup []

/-- Extraction part of `main` (lines 128-135 of the source): extract, clean,
deduplicate. -/
def pipeline (text : List Char) : List (List Char) :=
  dedupList (clean_usernames (extract_fediverse_usernames text))

/-- Data rows written by `main` (lines 139-142 of the source): one
`listname,username` row per unique username (the header row is separate). -/
def main_rows (listname text : List Char) : List (List Char) :=
  (pipeline text).map (fun u => listname ++ ',' :: u)

/-- Shape of inputs accepted by `convert_url_to_username`, written out from the
claim: the string begins with `http://` or `https://` followed by a non-empty
host (which, being a host followed by `/@`, contains no `/`), the two characters
`/@`, and a non-empty local part (a run of characters that are neither `/` nor
whitespace, as in the source's pattern); anything may follow. -/
def hasProfileForm (url : List Char) : Prop :=
  ∃ scheme host lp rest,
    (scheme = httpsPrefix ∨ scheme = httpPrefix) ∧
    url = scheme ++ host ++ '/' :: '@' :: lp ++ rest ∧
    host ≠ [] ∧ (∀ c ∈ host, (c == '/') = false) ∧
    lp ≠ [] ∧ (∀ c ∈ lp, isUrlChar c = true)

/-- Well-formed inline handle `@local@domain` exactly matchable by the pattern
`@[\w._-]+@[\w.-]+\w+`: non-empty local part over `[\w._-]`, domain over `[\w.-]`
of length at least two ending in a word character. -/
def validHandleParts (u d : List Char) : Prop :=
  u ≠ [] ∧ (∀ c ∈ u, isClass1 c = true) ∧
  2 ≤ d.length ∧ (∀ c ∈ d, isClass2 c = true) ∧
  (∀ c, d.getLast? = some c → isWordChar c = true)

/-- Canonical rendering `@local@domain` of a handle. -/
def handleOf (u d : List Char) : List Char :=
  '@' :: u ++ '@' :: d

/-- The text ends at a position where an inline-handle match may start afresh:
either nothing precedes, or the last preceding character can belong to no match
(it is neither `@` nor in the class `[\w._-]`). -/
def leftBoundary (pre : List Char) : Prop :=
  ∀ c, pre.getLast? = some c → isClass1 c = false ∧ (c == '@') = false

/-- The text following an occurrence does not extend the domain run: it is empty
or starts with a character outside `[\w.-]`. -/
def rightBoundary (post : List Char) : Prop :=
  ∀ c, post.head? = some c → isClass2 c = false

/-! ### Properties of the greedy span scanner -/

theorem spanP_sound (p : Char → Bool) (l : List Char) :
    (spanP p l).1 ++ (spanP p l).2 = l := by
  induction l with
  | nil => rfl
  | cons c cs ih =>
    cases h : p c with
    | true => simp [spanP, h, ih]
    | false => simp [spanP, h]

theorem spanP_all (p : Char → Bool) (l : List Char) :
    ∀ c ∈ (spanP p l).1, p c = true := by
  induction l with
  | nil => intro c hc; simp [spanP] at hc
  | cons c cs ih =>
    cases h : p c with
    | true =>
      intro x hx
      simp [spanP, h] at hx
      rcases hx with hx | hx
      · rw [hx]; exact h
      · exact ih x hx
    | false => intro x hx; simp [spanP, h] at hx

theorem spanP_head (p : Char → Bool) (l : List Char) :
    ∀ c, (spanP p l).2.head? = some c → p c = false := by
  induction l with
  | nil => intro c hc; simp [spanP] at hc
  | cons c cs ih =>
    cases h : p c with
    | true => intro x hx; simp [spanP, h] at hx; exact ih x hx
    | false =>
      intro x hx
      simp [spanP, h] at hx
      rw [← hx]; exact h

theorem spanP_stop (p : Char → Bool) (a r : List Char)
    (ha : ∀ c ∈ a, p c = true) (hr : ∀ c, r.head? = some c → p c = false) :
    spanP p (a ++ r) = (a, r) := by
  induction a with
  | nil =>
    cases r with
    | nil => rfl
    | cons c cs => simp [spanP, hr c rfl]
  | cons c cs ih =>
    have hc : p c = true := ha c (by simp)
    have ih2 := ih (fun x hx => ha x (by simp [hx]))
    simp [spanP, hc, ih2]

theorem spanP_frozen (p : Char → Bool) (l e : List Char) (h : (spanP p l).2 ≠ []) :
    spanP p (l ++ e) = ((spanP p l).1, (spanP p l).2 ++ e) := by
  cases hr : (spanP p l).2 with
  | nil => exact absurd hr h
  | cons c cs =>
    have hc : p c = false := spanP_head p l c (by rw [hr]; rfl)
    have hs := spanP_sound p l
    have h2 : spanP p ((spanP p l).1 ++ (c :: cs ++ e)) = ((spanP p l).1, c :: cs ++ e) :=
      spanP_stop p _ _ (spanP_all p l)
        (fun x hx => by simp at hx; rw [← hx]; exact hc)
    have h3 : l ++ e = (spanP p l).1 ++ (c :: cs ++ e) := by
      rw [← List.append_assoc, ← hr, hs]
    rw [h3, h2]

/-! ### Properties of literal-prefix matching and the scheme -/

theorem dropPrefixCh_sound (p : List Char) :
    ∀ l r, dropPrefixCh p l = some r → l = p ++ r := by
  induction p with
  | nil => intro l r h; simp [dropPrefixCh] at h; simp [h]
  | cons a ps ih =>
    intro l r h
    cases l with
    | nil => simp [dropPrefixCh] at h
    | cons c cs =>
      cases hc : c == a with
      | false => simp [dropPrefixCh, hc] at h
      | true =>
        simp only [dropPrefixCh, hc, if_true] at h
        have h2 := ih cs r h
        have h3 : c = a := eq_of_beq hc
        simp [h2, h3]

theorem dropPrefixCh_append (p : List Char) :
    ∀ l r e, dropPrefixCh p l = some r → dropPrefixCh p (l ++ e) = some (r ++ e) := by
  induction p with
  | nil =>
    intro l r e h
    simp [dropPrefixCh] at h
    simp [dropPrefixCh, h]
  | cons a ps ih =>
    intro l r e h
    cases l with
    | nil => simp [dropPrefixCh] at h
    | cons c cs =>
      cases hc : c == a with
      | false => simp [dropPrefixCh, hc] at h
      | true =>
        simp only [dropPrefixCh, hc, if_true] at h
        simpa [dropPrefixCh, hc] using ih cs r e h

theorem stripScheme_sound (l r : List Char) (h : stripScheme l = some r) :
    l = httpsPrefix ++ r ∨ l = httpPrefix ++ r := by
  unfold stripScheme at h
  cases hh : dropPrefixCh httpsPrefix l with
  | some r2 =>
    rw [hh] at h
    simp at h
    left
    rw [← h]
    exact dropPrefixCh_sound _ _ _ hh
  | none =>
    rw [hh] at h
    right
    exact dropPrefixCh_sound _ _ _ h

theorem stripScheme_append (l r e : List Char) (h : stripScheme l = some r) :
    stripScheme (l ++ e) = some (r ++ e) := by
  unfold stripScheme at h ⊢
  cases hh : dropPrefixCh httpsPrefix l with
  | some r2 =>
    rw [hh] at h
    simp at h
    rw [dropPrefixCh_append _ _ _ e hh, h]
  | none =>
    rw [hh] at h
    have hl := dropPrefixCh_sound _ _ _ h
    have hnone : dropPrefixCh httpsPrefix (l ++ e) = none := by
      rw [hl, List.append_assoc]
      rfl
    rw [hnone]
    exact dropPrefixCh_append _ _ _ e h

/-! ### Properties of the URL-to-username converter -/

theorem convertAfterScheme_slash (r1 h : List Char)
    (hc : convertAfterScheme r1 = some h) :
    convertAfterScheme (r1 ++ ['/']) = some h := by
  simp only [convertAfterScheme] at hc
  split at hc
  · exact absurd hc (by simp)
  · rename_i hhost
    split at hc
    · rename_i r3 heq
      simp only [convertAfterScheme]
      rw [spanP_frozen (fun c => !(c == '/')) r1 ['/'] (by rw [heq]; simp)]
      rw [heq]
      rw [if_neg hhost]
      simp only [List.cons_append]
      split at hc
      · exact absurd hc (by simp)
      · rename_i huser
        cases hu2 : (spanP isUrlChar r3).2 with
        | nil =>
          have hr3 : (spanP isUrlChar r3).1 = r3 := by
            have := spanP_sound isUrlChar r3
            rw [hu2] at this
            simpa using this
          have hstop : spanP isUrlChar (r3 ++ ['/']) = ((spanP isUrlChar r3).1, ['/']) := by
            conv_lhs => rw [← hr3]
            exact spanP_stop isUrlChar _ _ (spanP_all isUrlChar r3)
              (fun x hx => by simp at hx; subst hx; rfl)
          rw [hstop]
          rw [if_neg huser]
          exact hc
        | cons a as =>
          have hfr : spanP isUrlChar (r3 ++ ['/']) =
              ((spanP isUrlChar r3).1, (spanP isUrlChar r3).2 ++ ['/']) :=
            spanP_frozen isUrlChar r3 ['/'] (by rw [hu2]; simp)
          rw [hfr]
          rw [if_neg huser]
          exact hc
    · exact absurd hc (by simp)

theorem convert_append_slash (url h : List Char)
    (hc : convert_url_to_username url = some h) :
    convert_url_to_username (url ++ ['/']) = some h := by
  unfold convert_url_to_username at hc ⊢
  cases hs : stripScheme url with
  | none => rw [hs] at hc; exact absurd hc (by simp)
  | some r1 =>
    rw [hs] at hc
    rw [stripScheme_append url r1 ['/'] hs]
    exact convertAfterScheme_slash r1 h hc

theorem hasProfileForm_intro (scheme host lp rest url : List Char)
    (hsch : scheme = httpsPrefix ∨ scheme = httpPrefix)
    (hurl : url = scheme ++ host ++ '/' :: '@' :: lp ++ rest)
    (hh : host ≠ []) (hhc : ∀ c ∈ host, (c == '/') = false)
    (hl : lp ≠ []) (hlc : ∀ c ∈ lp, isUrlChar c = true) : hasProfileForm url :=
  ⟨scheme, host, lp, rest, hsch, hurl, hh, hhc, hl, hlc⟩

theorem convert_some_hasProfileForm (url h : List Char)
    (hc : convert_url_to_username url = some h) : hasProfileForm url := by
  unfold convert_url_to_username at hc
  cases hs : stripScheme url with
  | none => rw [hs] at hc; exact absurd hc (by simp)
  | some r1 =>
    rw [hs] at hc
    simp only [convertAfterScheme] at hc
    split at hc
    · exact absurd hc (by simp)
    · rename_i hhost
      split at hc
      · rename_i r3 heq
        split at hc
        · exact absurd hc (by simp)
        · rename_i huser
          have hr1 : r1 = (spanP (fun c => !(c == '/')) r1).1 ++ '/' :: '@' :: r3 := by
            conv_lhs => rw [← spanP_sound (fun c => !(c == '/')) r1]
            rw [heq]
          have hr3 : r3 = (spanP isUrlChar r3).1 ++ (spanP isUrlChar r3).2 :=
            (spanP_sound isUrlChar r3).symm
          rcases stripScheme_sound url r1 hs with hurl | hurl
          · refine hasProfileForm_intro httpsPrefix (spanP (fun c => !(c == '/')) r1).1
              (spanP isUrlChar r3).1 (spanP isUrlChar r3).2 url (Or.inl rfl) ?_ hhost ?_ huser
              (spanP_all isUrlChar r3)
            · conv_lhs => rw [hurl, hr1, hr3]
              simp
            · intro c hcm
              have := spanP_all (fun c => !(c == '/')) r1 c hcm
              simpa using this
          · refine hasProfileForm_intro httpPrefix (spanP (fun c => !(c == '/')) r1).1
              (spanP isUrlChar r3).1 (spanP isUrlChar r3).2 url (Or.inr rfl) ?_ hhost ?_ huser
              (spanP_all isUrlChar r3)
            · conv_lhs => rw [hurl, hr1, hr3]
              simp
            · intro c hcm
              have := spanP_all (fun c => !(c == '/')) r1 c hcm
              simpa using this
      · exact absurd hc (by simp)

/-! ### Properties of splitting and cleanup -/

theorem pySplit_no_sep (sep : Char) (l : List Char) (h : ∀ c ∈ l, (c == sep) = false) :
    pySplit sep l = [l] := by
  induction l with
  | nil => rfl
  | cons c cs ih =>
    have hc := h c (by simp)
    have ih2 := ih (fun x hx => h x (by simp [hx]))
    simp [pySplit, hc, ih2]

theorem pySplit_sep_append (sep : Char) (a r : List Char) (h : ∀ c ∈ a, (c == sep) = false) :
    pySplit sep (a ++ sep :: r) = a :: pySplit sep r := by
  induction a with
  | nil => simp [pySplit]
  | cons c cs ih =>
    have hc := h c (by simp)
    have ih2 := ih (fun x hx => h x (by simp [hx]))
    simp [pySplit, hc, ih2]

theorem class1_not_at (c : Char) (h : isClass1 c = true) : (c == '@') = false := by
  cases hbe : c == '@' with
  | false => rfl
  | true =>
    have hce : c = '@' := eq_of_beq hbe
    rw [hce] at h
    exact absurd h (by decide)

theorem class2_not_at (c : Char) (h : isClass2 c = true) : (c == '@') = false := by
  cases hbe : c == '@' with
  | false => rfl
  | true =>
    have hce : c = '@' := eq_of_beq hbe
    rw [hce] at h
    exact absurd h (by decide)

theorem count_handleOf (u d : List Char) (hu : ∀ c ∈ u, (c == '@') = false)
    (hd : ∀ c ∈ d, (c == '@') = false) : (handleOf u d).count '@' = 2 := by
  have hcu : u.count '@' = 0 := by
    rw [List.count_eq_zero]
    intro hm
    have := hu '@' hm
    simp at this
  have hcd : d.count '@' = 0 := by
    rw [List.count_eq_zero]
    intro hm
    have := hd '@' hm
    simp at this
  simp [handleOf, List.count_append, List.count_cons, hcu, hcd]

theorem cleanOne_canonical (cu cd : List Char) (hcu : cu ≠ []) (hcd : cd ≠ [])
    (hall1 : ∀ c ∈ cu, isClass1 c = true) (hall2 : ∀ c ∈ cd, isClass2 c = true) :
    cleanOne (handleOf cu cd) = some (handleOf cu cd) := by
  have hu := fun c hc => class1_not_at c (hall1 c hc)
  have hd := fun c hc => class2_not_at c (hall2 c hc)
  have hcount := count_handleOf cu cd hu hd
  have hsplit : pySplit '@' (handleOf cu cd) = [[], cu, cd] := by
    have h1 : handleOf cu cd = '@' :: (cu ++ '@' :: cd) := by simp [handleOf]
    rw [h1]
    have h2 : pySplit '@' ('@' :: (cu ++ '@' :: cd)) = [] :: pySplit '@' (cu ++ '@' :: cd) := by
      simp [pySplit]
    rw [h2, pySplit_sep_append '@' cu cd hu, pySplit_no_sep '@' cd hd]
  simp only [cleanOne, hcount, if_true, hsplit]
  rw [List.filter_eq_self.mpr hall1, List.filter_eq_self.mpr hall2]
  simp [handleOf, hcu, hcd]

theorem cleanOne_shape (x v : List Char) (h : cleanOne x = some v) :
    ∃ cu cd, v = handleOf cu cd ∧ cu ≠ [] ∧ cd ≠ [] ∧
      (∀ c ∈ cu, isClass1 c = true) ∧ (∀ c ∈ cd, isClass2 c = true) := by
  simp only [cleanOne] at h
  split at h
  · split at h
    · split at h
      · rename_i ph p1 p2 heq hne
        refine ⟨p1.filter isClass1, p2.filter isClass2, ?_, hne.1, hne.2, ?_, ?_⟩
        · have := Option.some.inj h
          rw [← this]
          simp [handleOf]
        · intro c hc
          exact List.of_mem_filter hc
        · intro c hc
          exact List.of_mem_filter hc
      · exact absurd h (by simp)
    · exact absurd h (by simp)
  · exact absurd h (by simp)

theorem cleanOne_idem (x v : List Char) (h : cleanOne x = some v) : cleanOne v = some v := by
  obtain ⟨cu, cd, rfl, h1, h2, h3, h4⟩ := cleanOne_shape x v h
  exact cleanOne_canonical cu cd h1 h2 h3 h4

theorem clean_usernames_fixpoint (us : List (List Char)) :
    clean_usernames (clean_usernames us) = clean_usernames us := by
  induction us with
  | nil => rfl
  | cons u rest ih =>
    unfold clean_usernames at ih ⊢
    rw [List.filterMap_cons]
    cases hc : cleanOne u with
    | none => exact ih
    | some v =>
      rw [List.filterMap_cons, cleanOne_idem u v hc, ih]

/-! ### Properties of the set model -/

theorem mem_insertNoDup (acc : List (List Char)) (x y : List Char) :
    y ∈ insertNoDup acc x ↔ y ∈ acc ∨ y = x := by
  by_cases h : x ∈ acc
  · simp only [insertNoDup, if_pos h]
    constructor
    · exact Or.inl
    · rintro (hy | rfl)
      · exact hy
      · exact h
  · simp [insertNoDup, if_neg h]

theorem nodup_insertNoDup (acc : List (List Char)) (x : List Char) (h : acc.Nodup) :
    (insertNoDup acc x).Nodup := by
  by_cases hm : x ∈ acc
  · simpa [insertNoDup, hm] using h
  · simp [insertNoDup, hm, List.nodup_append, h]

theorem mem_foldl_insertNoDup (l : List (List Char)) :
    ∀ acc y, y ∈ l.foldl insertNoDup acc ↔ y ∈ acc ∨ y ∈ l := by
  induction l with
  | nil => simp
  | cons a as ih =>
    intro acc y
    rw [List.foldl_cons, ih, mem_insertNoDup]
    simp [or_assoc]

theorem nodup_foldl_insertNoDup (l : List (List Char)) :
    ∀ acc, acc.Nodup → (l.foldl insertNoDup acc).Nodup := by
  induction l with
  | nil => exact fun acc h => h
  | cons a as ih =>
    intro acc h
    rw [List.foldl_cons]
    exact ih _ (nodup_insertNoDup acc a h)

theorem mem_foldl_addConverted (urls : List (List Char)) :
    ∀ acc y, y ∈ acc → y ∈ urls.foldl addConverted acc := by
  induction urls with
  | nil => exact fun acc y h => h
  | cons u us ih =>
    intro acc y hy
    rw [List.foldl_cons]
    apply ih
    unfold addConverted
    cases convert_url_to_username u with
    | none => exact hy
    | some v => exact (mem_insertNoDup acc v y).mpr (Or.inl hy)

theorem nodup_foldl_addConverted (urls : List (List Char)) :
    ∀ acc, acc.Nodup → (urls.foldl addConverted acc).Nodup := by
  induction urls with
  | nil => exact fun acc h => h
  | cons u us ih =>
    intro acc h
    rw [List.foldl_cons]
    apply ih
    unfold addConverted
    cases convert_url_to_username u with
    | none => exact h
    | some v => exact nodup_insertNoDup acc v h

theorem nodup_dedupList (l : List (List Char)) : (dedupList l).Nodup :=
  nodup_foldl_insertNoDup l [] (by simp)

theorem mem_dedupList (l : List (List Char)) (y : List Char) :
    y ∈ dedupList l ↔ y ∈ l := by
  have := mem_foldl_insertNoDup l [] y
  simpa [dedupList] using this

theorem mem_extract_of_mem_findAll (text y : List Char)
    (h : y ∈ findAllHandles text.length text) :
    y ∈ extract_fediverse_usernames text := by
  unfold extract_fediverse_usernames
  apply mem_foldl_addConverted
  exact (mem_foldl_insertNoDup _ [] y).mpr (Or.inr h)

theorem nodup_extract (text : List Char) :
    (extract_fediverse_usernames text).Nodup := by
  unfold extract_fediverse_usernames
  exact nodup_foldl_addConverted _ _ (nodup_foldl_insertNoDup _ [] (by simp))

theorem nodup_pipeline (text : List Char) : (pipeline text).Nodup :=
  nodup_dedupList _

/-! ### Empty scans -/

theorem findAllHandles_eq_nil (fuel : Nat) :
    ∀ l : List Char, (∀ s ∈ l.tails, matchHandleAt s = none) →
      findAllHandles fuel l = [] := by
  induction fuel with
  | zero => intro l _; rfl
  | succ f ih =>
    intro l h
    cases l with
    | nil => rfl
    | cons c cs =>
      have h0 : matchHandleAt (c :: cs) = none := h (c :: cs) (by simp)
      have hsub : ∀ s ∈ cs.tails, matchHandleAt s = none := by
        intro s hs
        apply h
        simp only [List.mem_tails] at hs ⊢
        exact hs.trans (List.suffix_cons c cs)
      rw [findAllHandles, h0]
      exact ih cs hsub

theorem findAllUrls_eq_nil (fuel : Nat) :
    ∀ l : List Char, (∀ s ∈ l.tails, matchUrlAt s = none) →
      findAllUrls fuel l = [] := by
  induction fuel with
  | zero => intro l _; rfl
  | succ f ih =>
    intro l h
    cases l with
    | nil => rfl
    | cons c cs =>
      have h0 : matchUrlAt (c :: cs) = none := h (c :: cs) (by simp)
      have hsub : ∀ s ∈ cs.tails, matchUrlAt s = none := by
        intro s hs
        apply h
        simp only [List.mem_tails] at hs ⊢
        exact hs.trans (List.suffix_cons c cs)
      rw [findAllUrls, h0]
      exact ih cs hsub

/-! ### The inline-handle scanner finds a standalone well-formed handle -/

theorem class2_class1 (c : Char) (h : isClass2 c = true) : isClass1 c = true := by
  revert h
  unfold isClass1 isClass2
  cases isWordChar c <;> cases c == '.' <;> cases c == '_' <;> cases c == '-' <;> simp

theorem matchHandleTail_split (r2 d r : List Char) (h : matchHandleTail r2 = some (d, r)) :
    r2 = d ++ r ∧ d ≠ [] ∧ ∀ c ∈ d, isClass2 c = true := by
  simp only [matchHandleTail] at h
  split at h
  · rename_i hlen
    simp only [Option.some.injEq, Prod.mk.injEq] at h
    obtain ⟨hd, hr⟩ := h
    have hs2 := spanP_sound isClass2 r2
    have hs3 := spanP_sound (fun c => !(isWordChar c)) (spanP isClass2 r2).1.reverse
    have hd0 : (spanP isClass2 r2).1 =
        (spanP (fun c => !(isWordChar c)) (spanP isClass2 r2).1.reverse).2.reverse ++
        (spanP (fun c => !(isWordChar c)) (spanP isClass2 r2).1.reverse).1.reverse := by
      have := congrArg List.reverse hs3
      simpa [List.reverse_append] using this.symm
    refine ⟨?_, ?_, ?_⟩
    · rw [← hd, ← hr]
      conv_lhs => rw [← hs2, hd0]
      simp [List.append_assoc]
    · rw [← hd]
      intro hnil
      rw [hnil] at hlen
      simp at hlen
    · intro c hc
      rw [← hd] at hc
      have hc2 : c ∈ (spanP isClass2 r2).1 := by
        rw [hd0]
        exact List.mem_append_left _ hc
      exact spanP_all isClass2 r2 c hc2
  · exact absurd h (by simp)

theorem matchHandleAt_split (l m rest : List Char) (h : matchHandleAt l = some (m, rest)) :
    l = m ++ rest ∧ m ≠ [] ∧ ∀ c ∈ m, c = '@' ∨ isClass1 c = true := by
  cases l with
  | nil => exact absurd h (by simp [matchHandleAt])
  | cons c cs =>
    by_cases hc : c = '@'
    · subst hc
      simp only [matchHandleAt] at h
      split at h
      · exact absurd h (by simp)
      · rename_i hu
        split at h
        · rename_i r2 heq2
          cases hmt : matchHandleTail r2 with
          | none => rw [hmt] at h; exact absurd h (by simp)
          | some pr =>
            obtain ⟨d, r⟩ := pr
            rw [hmt] at h
            simp only [Option.some.injEq, Prod.mk.injEq] at h
            obtain ⟨hm, hr⟩ := h
            obtain ⟨hr2, hdne, hdall⟩ := matchHandleTail_split r2 d r hmt
            have hcs : cs = (spanP isClass1 cs).1 ++ '@' :: (d ++ r) := by
              conv_lhs => rw [← spanP_sound isClass1 cs]
              rw [heq2, hr2]
            refine ⟨?_, ?_, ?_⟩
            · rw [← hm, ← hr]
              conv_lhs => rw [hcs]
              simp
            · rw [← hm]
              simp
            · intro x hx
              rw [← hm] at hx
              simp only [List.mem_cons, List.mem_append] at hx
              rcases hx with (rfl | hx) | (rfl | hx)
              · exact Or.inl rfl
              · exact Or.inr (spanP_all isClass1 cs x hx)
              · exact Or.inl rfl
              · exact Or.inr (class2_class1 x (hdall x hx))
        · exact absurd h (by simp)
    · have hnone : matchHandleAt (c :: cs) = none := by
        simp only [matchHandleAt]
        split
        · rename_i rest heq
          injection heq with h1 h2
          exact absurd h1 hc
        · rfl
      rw [hnone] at h
      exact absurd h (by simp)

theorem matchHandleAt_valid (u d post : List Char) (hv : validHandleParts u d)
    (hpost : rightBoundary post) :
    matchHandleAt (handleOf u d ++ post) = some (handleOf u d, post) := by
  obtain ⟨hu, hall1, hd2, hall2, hlast⟩ := hv
  have hspan1 : spanP isClass1 (u ++ '@' :: (d ++ post)) = (u, '@' :: (d ++ post)) :=
    spanP_stop _ _ _ hall1 (fun x hx => by simp at hx; rw [← hx]; rfl)
  have hspan2 : spanP isClass2 (d ++ post) = (d, post) :=
    spanP_stop _ _ _ hall2 hpost
  have hrev : spanP (fun c => !(isWordChar c)) d.reverse = ([], d.reverse) := by
    cases hdr : d.reverse with
    | nil => rfl
    | cons a as =>
      have ha : isWordChar a = true := by
        apply hlast
        rw [← List.head?_reverse, hdr]
        rfl
      show spanP _ (a :: as) = ([], a :: as)
      simp [spanP, ha]
  have hshape : handleOf u d ++ post = '@' :: (u ++ '@' :: (d ++ post)) := by
    simp [handleOf]
  rw [hshape]
  simp only [matchHandleAt, hspan1]
  rw [if_neg hu]
  simp only [matchHandleTail, hspan2, hrev]
  rw [List.reverse_reverse]
  rw [if_pos hd2]
  simp [handleOf]

theorem leftBoundary_tail (c : Char) (cs : List Char) (h : leftBoundary (c :: cs)) :
    leftBoundary cs := by
  intro x hx
  apply h
  cases cs with
  | nil => simp at hx
  | cons b bs => rw [List.getLast?_cons_cons]; exact hx

theorem handle_mem_findAllHandles (u d post : List Char) (hv : validHandleParts u d)
    (hpost : rightBoundary post) :
    ∀ fuel pre, leftBoundary pre →
      pre.length + (handleOf u d ++ post).length ≤ fuel →
      handleOf u d ∈ findAllHandles fuel (pre ++ (handleOf u d ++ post)) := by
  intro fuel
  induction fuel with
  | zero =>
    intro pre _ hlen
    exfalso
    simp [handleOf] at hlen
  | succ f ih =>
    intro pre hpre hlen
    cases pre with
    | nil =>
      simp only [List.nil_append]
      have hm := matchHandleAt_valid u d post hv hpost
      have hshape : handleOf u d ++ post = '@' :: (u ++ '@' :: (d ++ post)) := by
        simp [handleOf]
      rw [hshape] at hm ⊢
      rw [findAllHandles, hm]
      exact List.mem_cons_self _ _
    | cons c cs =>
      have hshape2 : (c :: cs) ++ (handleOf u d ++ post) =
          c :: (cs ++ (handleOf u d ++ post)) := by simp
      rw [hshape2]
      rw [findAllHandles]
      cases hma : matchHandleAt (c :: (cs ++ (handleOf u d ++ post))) with
      | none =>
        have hlen2 : cs.length + (handleOf u d ++ post).length ≤ f := by
          simp only [List.length_cons] at hlen
          omega
        exact ih cs (leftBoundary_tail c cs hpre) hlen2
      | some pr =>
        obtain ⟨m, rest⟩ := pr
        obtain ⟨hsplit, hm0, halpha⟩ := matchHandleAt_split _ m rest hma
        have hg : (c :: cs).getLast? = some ((c :: cs).getLast (by simp)) :=
          List.getLast?_eq_getLast_of_ne_nil (by simp)
        have hbound := hpre _ hg
        have hgmem : (c :: cs).getLast (by simp) ∈ c :: cs := List.getLast_mem _
        have hcontra : (c :: cs).getLast (by simp) ∈ m → False := by
          intro hmem
          rcases halpha _ hmem with hat | hcl
          · rw [hat] at hbound
            simp at hbound
          · rw [hcl] at hbound
            simp at hbound
        have hsplit2 : m ++ rest = (c :: cs) ++ (handleOf u d ++ post) := by
          rw [← hsplit]
          simp
        rcases List.append_eq_append_iff.mp hsplit2 with ⟨a2, hca, hra⟩ | ⟨c2, hmc, hrc⟩
        · cases a2 with
          | nil =>
            exfalso
            apply hcontra
            rw [List.append_nil] at hca
            rw [← hca]
            exact hgmem
          | cons b bs =>
            have hlb : leftBoundary (b :: bs) := by
              intro x hx
              apply hpre
              rw [hca, List.getLast?_append_of_ne_nil m (by simp)]
              exact hx
            have hlen3 : (b :: bs).length + (handleOf u d ++ post).length ≤ f := by
              have hle : (c :: cs).length = m.length + (b :: bs).length := by
                rw [hca]
                simp
              have hmp : 1 ≤ m.length := List.length_pos.mpr hm0
              simp only [List.length_cons] at hlen hle ⊢
              omega
            have hmem2 := ih (b :: bs) hlb hlen3
            rw [hra]
            exact List.mem_cons_of_mem m hmem2
        · exfalso
          apply hcontra
          rw [hmc]
          exact List.mem_append_left c2 hgmem

theorem cleanOne_validHandle (u d : List Char) (hv : validHandleParts u d) :
    cleanOne (handleOf u d) = some (handleOf u d) := by
  obtain ⟨hu, hall1, hd2, hall2, _⟩ := hv
  have hd : d ≠ [] := by
    intro hnil
    rw [hnil] at hd2
    simp at hd2
  exact cleanOne_canonical u d hu hd hall1 hall2

theorem handle_mem_pipeline (u d pre post : List Char) (hv : validHandleParts u d)
    (hpre : leftBoundary pre) (hpost : rightBoundary post) :
    handleOf u d ∈ pipeline (pre ++ (handleOf u d ++ post)) := by
  have hlen : pre.length + (handleOf u d ++ post).length ≤
      (pre ++ (handleOf u d ++ post)).length := by
    simp
  have hfind := handle_mem_findAllHandles u d post hv hpost
    (pre ++ (handleOf u d ++ post)).length pre hpre hlen
  have hex := mem_extract_of_mem_findAll (pre ++ (handleOf u d ++ post)) (handleOf u d) hfind
  have hcln : handleOf u d ∈ clean_usernames
      (extract_fediverse_usernames (pre ++ (handleOf u d ++ post))) :=
    List.mem_filterMap.mpr ⟨handleOf u d, hex, cleanOne_validHandle u d hv⟩
  exact (mem_dedupList _ _).mpr hcln

theorem count_one_of_nodup (a : List Char) (l : List (List Char)) (hn : l.Nodup) (hm : a ∈ l) :
    List.count a l = 1 := by
  induction l with
  | nil => simp at hm
  | cons b bs ih =>
    rw [List.count_cons]
    rcases List.mem_cons.mp hm with rfl | hmb
    · have hnb : a ∉ bs := (List.nodup_cons.mp hn).1
      rw [List.count_eq_zero.mpr hnb]
      simp
    · have hne : ¬(a == b) = true := by
        intro hab
        have hab2 : a = b := eq_of_beq hab
        rw [hab2] at hmb
        exact (List.nodup_cons.mp hn).1 hmb
      rw [ih (List.nodup_cons.mp hn).2 hmb]
      have hba : ¬b = a := by
        intro hba
        subst hba
        exact hne (by simp)
      simp [hne, hba]

theorem handle_count_pipeline (u d pre post : List Char) (hv : validHandleParts u d)
    (hpre : leftBoundary pre) (hpost : rightBoundary post) :
    List.count (handleOf u d) (pipeline (pre ++ (handleOf u d ++ post))) = 1 :=
  count_one_of_nodup _ _ (nodup_pipeline _)
    (handle_mem_pipeline u d pre post hv hpre hpost)

theorem leftBoundary_nil : leftBoundary [] := by
  intro c hc
  simp at hc

theorem rightBoundary_nil : rightBoundary [] := by
  intro c hc
  simp at hc

theorem rightBoundary_append (mid x : List Char) (hne : mid ≠ []) (h : rightBoundary mid) :
    rightBoundary (mid ++ x) := by
  intro c hc
  cases mid with
  | nil => exact absurd rfl hne
  | cons b bs =>
    simp at hc
    rw [← hc]
    exact h b rfl

theorem leftBoundary_append (a mid : List Char) (hne : mid ≠ []) (h : leftBoundary mid) :
    leftBoundary (a ++ mid) := by
  intro c hc
  rw [List.getLast?_append_of_ne_nil a hne] at hc
  exact h c hc

theorem validHandleParts_alice : validHandleParts "alice".data "example.social".data := by
  refine ⟨by decide, by decide, by decide, by decide, ?_⟩
  intro c hc
  have he : ("example.social".data).getLast? = some 'l' := by decide
  rw [he] at hc
  injection hc with h
  rw [← h]
  decide

theorem validHandleParts_Alice : validHandleParts "Alice".data "example.social".data := by
  refine ⟨by decide, by decide, by decide, by decide, ?_⟩
  intro c hc
  have he : ("example.social".data).getLast? = some 'l' := by decide
  rw [he] at hc
  injection hc with h
  rw [← h]
  decide

theorem leftBoundary_single (c : Char) (h1 : isClass1 c = false) (h2 : (c == '@') = false) :
    leftBoundary [c] := by
  intro x hx
  simp at hx
  subst hx
  exact ⟨h1, h2⟩

theorem rightBoundary_single (c : Char) (h : isClass2 c = false) : rightBoundary [c] := by
  intro x hx
  simp at hx
  subst hx
  exact h

/-! ### Claims -/

/-- C1: for the input text
`Follow @alice@example.social and https://other.town/@bob/ today.` and list name
`friends`, the full pipeline (candidate recognition, URL conversion, cleanup,
deduplication, row formatting) produces exactly the rows
`friends,@alice@example.social` and `friends,@bob@other.town` and no others. -/
theorem claim_C1_end_to_end :
    main_rows "friends".data
      "Follow @alice@example.social and https://other.town/@bob/ today.".data =
      ["friends,@alice@example.social".data, "friends,@bob@other.town".data] := by
  decide

/-- C2: every candidate whose number of `@` characters is not exactly two is
silently dropped by the normalization step: it contributes nothing to the output
of `clean_usernames` and no error is raised (the function is total); in
particular `@alice@bob@example.social`, which has three `@`, is dropped. -/
theorem claim_C2_wrong_at_count_dropped :
    (∀ u us, u.count '@' ≠ 2 → clean_usernames (u :: us) = clean_usernames us) ∧
    clean_usernames ["@alice@bob@example.social".data] = [] := by
  constructor
  · intro u us h
    unfold clean_usernames
    rw [List.filterMap_cons]
    have hnone : cleanOne u = none := by
      unfold cleanOne
      rw [if_neg h]
    rw [hnone]
  · decide

/-- C2 witness: the concrete three-`@` candidate has `@`-count 3 and is dropped. -/
theorem claim_C2_witness :
    "@alice@bob@example.social".data.count '@' ≠ 2 ∧
    clean_usernames ("@alice@bob@example.social".data :: []) = clean_usernames [] :=
  ⟨by decide, claim_C2_wrong_at_count_dropped.1 "@alice@bob@example.social".data [] (by decide)⟩

/-- C3: `convert_url_to_username` maps both `https://example.social/@alice` and
`https://example.social/@alice/` to the identical handle
`@alice@example.social`; in general appending a trailing slash to any URL that
converts successfully yields the same handle. -/
theorem claim_C3_trailing_slash :
    convert_url_to_username "https://example.social/@alice".data =
      some "@alice@example.social".data ∧
    convert_url_to_username "https://example.social/@alice/".data =
      some "@alice@example.social".data ∧
    ∀ url h, convert_url_to_username url = some h →
      convert_url_to_username (url ++ ['/']) = some h :=
  ⟨by decide, by decide, convert_append_slash⟩

/-- C3 witness: a further concrete URL converts identically with and without
the trailing slash. -/
theorem claim_C3_witness :
    convert_url_to_username ("https://x/@y".data ++ ['/']) = some "@y@x".data :=
  claim_C3_trailing_slash.2.2 "https://x/@y".data "@y@x".data (by decide)

/-- C4: the normalizer is a fixed point on its own output: applying
`clean_usernames` twice equals applying it once, for every input list. -/
theorem claim_C4_fixpoint (us : List (List Char)) :
    clean_usernames (clean_usernames us) = clean_usernames us :=
  clean_usernames_fixpoint us

/-- C5 counterexample: the text `@alice@example.socialx` contains the handle
`@alice@example.social` as a substring, yet the final deduplicated output
contains that handle zero times (the greedy domain run swallows the `x`), so
the claim is false for plain substring containment. -/
theorem claim_C5_counterexample :
    "@alice@example.socialx".data = [] ++ ("@alice@example.social".data ++ ['x']) ∧
    List.count "@alice@example.social".data (pipeline "@alice@example.socialx".data) = 0 := by
  constructor
  · decide
  · decide

/-- C5 (amended): for every text containing a standalone occurrence of
`@alice@example.social` — preceded by the start of text or a character that is
neither `@` nor in `[\w._-]`, and followed by the end of text or a character
outside `[\w.-]` — the handle appears exactly once in the final deduplicated
output, no matter how often it occurs in the text. -/
theorem claim_C5_standalone_once (pre post : List Char)
    (hpre : leftBoundary pre) (hpost : rightBoundary post) :
    List.count "@alice@example.social".data
      (pipeline (pre ++ ("@alice@example.social".data ++ post))) = 1 := by
  have hs : "@alice@example.social".data = handleOf "alice".data "example.social".data := by
    decide
  rw [hs]
  exact handle_count_pipeline _ _ pre post validHandleParts_alice hpre hpost

/-- C5 witness: the standalone text consisting of the handle alone yields it
exactly once. -/
theorem claim_C5_witness :
    List.count "@alice@example.social".data
      (pipeline ([] ++ ("@alice@example.social".data ++ []))) = 1 :=
  claim_C5_standalone_once [] [] leftBoundary_nil rightBoundary_nil

/-- C6: every handle emitted by the normalization step has exactly two `@`
separators and non-empty local part and domain. -/
theorem claim_C6_invariant (us : List (List Char)) (v : List Char)
    (hv : v ∈ clean_usernames us) :
    v.count '@' = 2 ∧ ∃ lp dm, v = '@' :: lp ++ '@' :: dm ∧ lp ≠ [] ∧ dm ≠ [] := by
  obtain ⟨x, hx, hcx⟩ := List.mem_filterMap.mp hv
  obtain ⟨cu, cd, rfl, h1, h2, h3, h4⟩ := cleanOne_shape x v hcx
  constructor
  · exact count_handleOf cu cd (fun c hc => class1_not_at c (h3 c hc))
      (fun c hc => class2_not_at c (h4 c hc))
  · exact ⟨cu, cd, by simp [handleOf], h1, h2⟩

/-- C6 witness: instantiated on the output of cleaning a concrete handle. -/
theorem claim_C6_witness :
    "@alice@example.social".data.count '@' = 2 ∧
    ∃ lp dm, "@alice@example.social".data = '@' :: lp ++ '@' :: dm ∧ lp ≠ [] ∧ dm ≠ [] :=
  claim_C6_invariant ["@alice@example.social".data] "@alice@example.social".data (by decide)

/-- C7 counterexample: `clean_usernames` itself does not deduplicate: the two
distinct raw candidates `@alice@example.social` and `@alice@example.social)`
normalize to the same canonical handle, which then appears twice in the
output list of `clean_usernames`. -/
theorem claim_C7_counterexample :
    ["@alice@example.social".data, "@alice@example.social)".data].Nodup ∧
    ¬ (clean_usernames
        ["@alice@example.social".data, "@alice@example.social)".data]).Nodup := by
  constructor
  · decide
  · decide

/-- C7 (amended): deduplication by exact string equality of the canonical form
happens one step later, in `main` via `list(set(...))`: after that step the
collection contains no two equal canonical handle strings, for every input. -/
theorem claim_C7_dedup_after (us : List (List Char)) :
    (dedupList (clean_usernames us)).Nodup :=
  nodup_dedupList _

/-- C8: for every text in which no position matches the inline-handle pattern
and no position matches the profile-URL pattern, the extraction result is
empty (and extraction is total, so no error is raised). -/
theorem claim_C8_no_candidates (text : List Char)
    (h1 : ∀ s ∈ text.tails, matchHandleAt s = none)
    (h2 : ∀ s ∈ text.tails, matchUrlAt s = none) :
    extract_fediverse_usernames text = [] := by
  unfold extract_fediverse_usernames
  rw [findAllHandles_eq_nil text.length text h1, findAllUrls_eq_nil text.length text h2]
  rfl

/-- C8 witness: a concrete text with no handle-like substrings extracts to the
empty set. -/
theorem claim_C8_witness : extract_fediverse_usernames "hello world.".data = [] :=
  claim_C8_no_candidates "hello world.".data (by decide) (by decide)

/-- C9 counterexample: the text `@Alice@example.socialx @alice@example.socialx`
contains both `@Alice@example.social` and `@alice@example.social` as
substrings, yet neither appears in the final output (the greedy domain run
swallows each trailing `x`), so the claim is false for plain substring
containment. -/
theorem claim_C9_counterexample :
    "@Alice@example.socialx @alice@example.socialx".data =
      [] ++ ("@Alice@example.social".data ++
        (('x' :: ' ' :: []) ++ ("@alice@example.social".data ++ ['x']))) ∧
    "@Alice@example.social".data ∉
      pipeline "@Alice@example.socialx @alice@example.socialx".data ∧
    "@alice@example.social".data ∉
      pipeline "@Alice@example.socialx @alice@example.socialx".data := by
  refine ⟨by decide, by decide, by decide⟩

/-- C9 (amended): no case-folding is performed: for every text containing
standalone occurrences (delimited as in C5) of both `@Alice@example.social`
and `@alice@example.social`, both handles appear in the final output and they
are distinct elements. -/
theorem claim_C9_case_distinct (p1 mid p2 : List Char) (hp1 : leftBoundary p1)
    (hmid : mid ≠ []) (hmidL : leftBoundary mid) (hmidR : rightBoundary mid)
    (hp2 : rightBoundary p2) :
    "@Alice@example.social".data ∈ pipeline
      (p1 ++ ("@Alice@example.social".data ++
        (mid ++ ("@alice@example.social".data ++ p2)))) ∧
    "@alice@example.social".data ∈ pipeline
      (p1 ++ ("@Alice@example.social".data ++
        (mid ++ ("@alice@example.social".data ++ p2)))) ∧
    "@Alice@example.social".data ≠ "@alice@example.social".data := by
  have hsA : "@Alice@example.social".data = handleOf "Alice".data "example.social".data := by
    decide
  have hsa : "@alice@example.social".data = handleOf "alice".data "example.social".data := by
    decide
  refine ⟨?_, ?_, by decide⟩
  · rw [hsA]
    have hpost : rightBoundary (mid ++ ("@alice@example.social".data ++ p2)) :=
      rightBoundary_append mid _ hmid hmidR
    exact handle_mem_pipeline _ _ p1 _ validHandleParts_Alice hp1 hpost
  · rw [hsa]
    have hre : p1 ++ ("@Alice@example.social".data ++
        (mid ++ (handleOf "alice".data "example.social".data ++ p2))) =
        (p1 ++ ("@Alice@example.social".data ++ mid)) ++
          (handleOf "alice".data "example.social".data ++ p2) := by
      simp [List.append_assoc]
    rw [hre]
    have hpre2 : leftBoundary (p1 ++ ("@Alice@example.social".data ++ mid)) :=
      leftBoundary_append p1 _ (by simp [hmid])
        (leftBoundary_append "@Alice@example.social".data mid hmid hmidL)
    exact handle_mem_pipeline _ _ _ p2 validHandleParts_alice hpre2 hp2

/-- C9 witness: the two handles separated by a space both appear, distinct. -/
theorem claim_C9_witness :
    "@Alice@example.social".data ∈ pipeline
      ([] ++ ("@Alice@example.social".data ++
        ([' '] ++ ("@alice@example.social".data ++ [])))) ∧
    "@alice@example.social".data ∈ pipeline
      ([] ++ ("@Alice@example.social".data ++
        ([' '] ++ ("@alice@example.social".data ++ [])))) ∧
    "@Alice@example.social".data ≠ "@alice@example.social".data :=
  claim_C9_case_distinct [] [' '] [] leftBoundary_nil (by decide)
    (leftBoundary_single ' ' (by decide) (by decide))
    (rightBoundary_single ' ' (by decide)) rightBoundary_nil

/-- C10: `convert_url_to_username` returns `none` (rather than a handle or an
error) for every input that does not begin with `http://` or `https://`
followed by a non-empty host, `/@`, and a non-empty local part; in particular
for the bare handle `@alice@example.social` and for the empty string. -/
theorem claim_C10_none_on_non_urls :
    (∀ url, ¬ hasProfileForm url → convert_url_to_username url = none) ∧
    convert_url_to_username "@alice@example.social".data = none ∧
    convert_url_to_username [] = none := by
  refine ⟨?_, by decide, rfl⟩
  intro url hn
  cases hcv : convert_url_to_username url with
  | none => rfl
  | some h => exact absurd (convert_some_hasProfileForm url h hcv) hn

/-- C10 witness: the single-character input `x` has no profile-URL form and
converts to `none`. -/
theorem claim_C10_witness : convert_url_to_username ['x'] = none :=
  claim_C10_none_on_non_urls.1 ['x'] (by
    rintro ⟨s, ho, lp, rest, hsch, heq, -, -, -, -⟩
    rcases hsch with rfl | rfl <;> simp [httpsPrefix, httpPrefix] at heq)
